import Mathlib

/-!
Shallow embedding of the two OpenCL kernels of `blackhole_ocl`
(`src/rays.ocl.c` and `src/render.ocl.c`) over the real numbers, together
with theorems settling the specification claims about them.

Modelling conventions:
* OpenCL `float` arithmetic is embedded as real arithmetic; `sqrt`, `sin`,
  `cos`, `acos` are `Real.sqrt`, `Real.sin`, `Real.cos`, `Real.arccos`, and
  `atan2` is defined below with the C library's branch structure.
* `__global` arrays are total functions from indices.
* A C cast `(int)` of a float is truncation toward zero (`cTrunc`); a cast
  to `unsigned char` is truncation followed by reduction mod 256.
* The buffer write `buffer[pixel_loc] = final_pixel` is modelled by making
  the kernel return the `Pixel` it stores for a given work item
  `(gid0, gid1)`; the addressing arithmetic itself is not needed by any
  claim.
-/

namespace Blackhole

/-- Truncation toward zero, the semantics of a C `(int)` cast on a float. -/
noncomputable def cTrunc (x : ℝ) : ℤ := if 0 ≤ x then ⌊x⌋ else ⌈x⌉

/-- C cast of a float to `unsigned char`: truncate toward zero, reduce mod 256
(for in-range values this is plain truncation). -/
noncomputable def ucharOf (v : ℝ) : ℕ := (cTrunc v).toNat % 256

/-! ## rays.ocl.c -/

/-- `__constant float GM = 10.;` -/
noncomputable def GM : ℝ := 10

/-- `d2r` from rays.ocl.c: second derivative of `r` along the geodesic. -/
noncomputable def d2r (r dt dr dtheta : ℝ) : ℝ :=
  - GM / (r * r * r) * (r - 2 * GM) * dt * dt
    + GM / (r * (r - 2 * GM)) * dr * dr
    + (r - 2 * GM) * dtheta * dtheta

/-- `d2theta` from rays.ocl.c: second derivative of `theta`. -/
noncomputable def d2theta (r dr dtheta : ℝ) : ℝ :=
  - 2 / r * dtheta * dr

/-- `null_dt` from rays.ocl.c: the value of `dt` making the path null. -/
noncomputable def null_dt (r dr dtheta : ℝ) : ℝ :=
  Real.sqrt (dr * dr / ((1 - 2 * GM / r) * (1 - 2 * GM / r))
    + r * r * dtheta * dtheta / (1 - 2 * GM / r))

/-- `__constant int NUM_ITER = 1000000;` -/
def NUM_ITER : ℕ := 1000000

/-- `__constant float TS = 0.01;` -/
noncomputable def TS : ℝ := 0.01

/-- `float min_r = 2 * GM + 0.0001;` from the body of `gen_outcomes`. -/
noncomputable def min_r : ℝ := 2 * GM + 0.0001

/-- The mutable per-ray state of the integration loop of `gen_outcomes`:
`r`, `theta` and their derivatives with respect to the affine parameter. -/
structure RState where
  r : ℝ
  theta : ℝ
  dr : ℝ
  dtheta : ℝ

/-- One iteration of the integration loop of `gen_outcomes` (without the
termination tests): recompute `dt` from the null condition, form the second
derivatives, update the velocities, then update the positions with the
just-updated velocities. -/
noncomputable def stepState (s : RState) : RState :=
  let dt := null_dt s.r s.dr s.dtheta
  let ddr := d2r s.r dt s.dr s.dtheta
  let ddtheta := d2theta s.r s.dr s.dtheta
  let dr := s.dr + TS * ddr
  let dtheta := s.dtheta + TS * ddtheta
  let r := s.r + TS * dr
  let theta := s.theta + TS * dtheta
  ⟨r, theta, dr, dtheta⟩

/-- The `for (t = 0; t < NUM_ITER; t++)` loop of `gen_outcomes`, with its two
`break`s: returns the state at loop exit together with the `hit` flag. -/
noncomputable def runLoop : ℕ → RState → RState × Bool
  | 0, s => (s, false)
  | (fuel + 1), s =>
    let t := stepState s
    if t.r ≤ min_r then (t, true)
    else if t.r > 500 then (t, false)
    else runLoop fuel t

/-- The C library `atan2` on reals (range `(-π, π]`). -/
noncomputable def atan2 (y x : ℝ) : ℝ :=
  if 0 < x then Real.arctan (y / x)
  else if x < 0 then
    (if 0 ≤ y then Real.arctan (y / x) + Real.pi
     else Real.arctan (y / x) - Real.pi)
  else
    (if 0 < y then Real.pi / 2
     else if y < 0 then - (Real.pi / 2)
     else 0)

/-- The tail of `gen_outcomes`: from the loop's final state and `hit` flag,
produce `(angles[slot], outcomes[slot])`. -/
noncomputable def finishRay (p : RState × Bool) : ℝ × ℕ :=
  if p.2 then (Real.pi / 2 - p.1.theta, 0)
  else
    (atan2 (- p.1.r * Real.sin p.1.theta * p.1.dtheta + Real.cos p.1.theta * p.1.dr)
           (p.1.r * Real.cos p.1.theta * p.1.dtheta + Real.sin p.1.theta * p.1.dr),
     1)

/-- Run the integration loop with the full `NUM_ITER` budget and classify. -/
noncomputable def rayResult (s : RState) : ℝ × ℕ := finishRay (runLoop NUM_ITER s)

/-- The per-slot initialisation of `gen_outcomes`: impact parameter from the
linear interpolation of `[mn, mx]`, start at `r = start_r`, `theta = π`, and
direction `(dx = ray_amt, dz = 1)` converted to Schwarzschild rates. -/
noncomputable def initState (mn mx : ℝ) (num : ℕ) (start_r : ℝ) (slot : ℕ) : RState :=
  let i : ℝ := slot
  let frac : ℝ := i / ((num : ℝ) - 1)
  let ray_amt : ℝ := mx * frac + mn * (1 - frac)
  let dx : ℝ := ray_amt
  let dz : ℝ := 1
  let r : ℝ := start_r
  let theta : ℝ := Real.pi
  let dr : ℝ := - start_r * dz / r
  let dtheta : ℝ := - start_r * dx / (r * r)
  ⟨r, theta, dr, dtheta⟩

/-- The whole `gen_outcomes` kernel for one work item `slot`:
`(angles[slot], outcomes[slot])`, with outcome `0` = captured, `1` = escaped. -/
noncomputable def gen_outcomes (mn mx : ℝ) (num : ℕ) (start_r : ℝ) (slot : ℕ) : ℝ × ℕ :=
  rayResult (initState mn mx num start_r slot)

/-- The state after `t` iterations of the integration step. -/
noncomputable def iterState (t : ℕ) (s : RState) : RState := stepState^[t] s

/-! ## render.ocl.c -/

/-- The `Pixel` struct of render.ocl.c; the four `unsigned char` channels are
modelled as naturals, listed in the struct's declaration order `a, r, g, b`. -/
structure Pixel where
  a : ℕ
  r : ℕ
  g : ℕ
  b : ℕ
deriving DecidableEq

/-- An OpenCL `float4`, component order `x, y, z, w`. -/
structure Float4 where
  x : ℝ
  y : ℝ
  z : ℝ
  w : ℝ

/-- A texture together with the sampler: the result of
`read_imagef(img, sampler_const, coords)` as a function of the coordinates. -/
def Texture : Type := ℝ → ℝ → Float4

/-- `pixel_from_img` from render.ocl.c: sample the image, scale by 255 and
cast each component to `unsigned char`, filling the fields `a, r, g, b` from
`vals.w, vals.x, vals.y, vals.z`. -/
noncomputable def pixel_from_img (img : Texture) (cu cv : ℝ) : Pixel :=
  let vals := img cu cv
  ⟨ucharOf (vals.w * 255), ucharOf (vals.x * 255),
   ucharOf (vals.y * 255), ucharOf (vals.z * 255)⟩

/-- `__constant float max_r = 5.;` from render.ocl.c. -/
noncomputable def max_r : ℝ := 5

/-- `lookup` from render.ocl.c: truncate the query position to an index,
return that slot's outcome, and return the slot's angle unblended across an
outcome discontinuity, linearly interpolated otherwise. -/
noncomputable def lookup (angles : ℤ → ℝ) (angle_results : ℤ → ℕ) (pos : ℝ) : ℝ × ℕ :=
  if angle_results (cTrunc pos) ≠ angle_results (cTrunc pos + 1) then
    (angles (cTrunc pos), angle_results (cTrunc pos))
  else
    ((1 - (pos - (cTrunc pos : ℝ))) * angles (cTrunc pos)
       + (pos - (cTrunc pos : ℝ)) * angles (cTrunc pos + 1),
     angle_results (cTrunc pos))

/-- The scalar arguments of the `schwarz` kernel (the output buffer and its
pitch are omitted: the kernel is modelled as returning the pixel it writes). -/
structure RenderArgs where
  angles : ℤ → ℝ
  angle_results : ℤ → ℕ
  x_res : ℕ
  y_res : ℕ
  cx : ℝ
  cy : ℝ
  skytex : Texture
  spheretex : Texture
  aa : ℕ
  num_outcomes : ℕ

/-- The texture-independent part of one supersample of the `schwarz` kernel:
everything up to the texture choice, returning the outcome `res` and the
equirectangular coordinates `(theta, phi)`. -/
noncomputable def sampleGeom (A : RenderArgs) (gid0 gid1 aa_x aa_y : ℕ) : ℕ × ℝ × ℝ :=
  let x : ℝ := (gid0 : ℝ) + (aa_x : ℝ) / (A.aa : ℝ)
  let y : ℝ := (gid1 : ℝ) + (aa_y : ℝ) / (A.aa : ℝ)
  let px : ℝ := (x - (A.x_res : ℝ) / 2) / ((A.x_res / 2 : ℕ) : ℝ)
  let py : ℝ := (y - (A.y_res : ℝ) / 2) / ((A.x_res / 2 : ℕ) : ℝ)
  let r : ℝ := Real.sqrt (px * px + py * py) * 3
  let lres := lookup A.angles A.angle_results (r * (A.num_outcomes : ℝ) / max_r)
  let angle_out := lres.1
  let res := lres.2
  let pixel_angle := atan2 py px
  let l0x := Real.cos angle_out
  let l0y := Real.sin angle_out
  let l0z : ℝ := 0
  let l1x := Real.cos pixel_angle * l0x + Real.sin pixel_angle * l0z
  let l1y := l0y
  let l1z := - Real.sin pixel_angle * l0x + Real.cos pixel_angle * l0z
  let x_angle := A.cx / 200
  let y_angle := (A.cy - 600) / 200
  let l2x := l1x
  let l2y := Real.cos y_angle * l1y + Real.sin y_angle * l1z
  let l2z := - Real.sin y_angle * l1y + Real.cos y_angle * l1z
  let l3x := Real.cos x_angle * l2x + Real.sin x_angle * l2y
  let l3y := - Real.sin x_angle * l2x + Real.cos x_angle * l2y
  let l3z := l2z
  let phi := Real.arccos l3z / Real.pi
  let theta := (atan2 l3y l3x + Real.pi) / (2 * Real.pi)
  (res, theta, phi)

/-- One supersample of the `schwarz` kernel: the sampled `Pixel` for AA
offsets `(aa_x, aa_y)` inside pixel `(gid0, gid1)`. -/
noncomputable def samplePix (A : RenderArgs) (gid0 gid1 aa_x aa_y : ℕ) : Pixel :=
  let g := sampleGeom A gid0 gid1 aa_x aa_y
  if g.1 = 0 then pixel_from_img A.spheretex g.2.1 g.2.2
  else pixel_from_img A.skytex (- g.2.1) g.2.2

/-- The nested AA loops of `schwarz`: fold the `r`, `g`, `b` channels of every
supersample into the three integer accumulators `(res_r, res_g, res_b)`. -/
noncomputable def accumChannels (A : RenderArgs) (gid0 gid1 : ℕ) : ℕ × ℕ × ℕ :=
  (List.range A.aa).foldl
    (fun acc aa_x =>
      (List.range A.aa).foldl
        (fun acc2 aa_y =>
          let p := samplePix A gid0 gid1 aa_x aa_y
          (acc2.1 + p.r, acc2.2.1 + p.g, acc2.2.2 + p.b))
        acc)
    (0, 0, 0)

/-- The `schwarz` kernel for work item `(gid0, gid1)`: accumulate the
supersamples, divide each channel by `aa*aa` with integer division, and build
the stored `Pixel` from the initialiser `{ res_b, res_g, res_r, 0 }`. -/
noncomputable def schwarz (A : RenderArgs) (gid0 gid1 : ℕ) : Pixel :=
  let acc := accumChannels A gid0 gid1
  let res_r := acc.1 / (A.aa * A.aa)
  let res_g := acc.2.1 / (A.aa * A.aa)
  let res_b := acc.2.2 / (A.aa * A.aa)
  ⟨res_b, res_g, res_r, 0⟩

/-! ## Auxiliary definitions used by the theorems -/

/-- The mirror image of a ray state under the reflection `x ↦ -x` of the
embedding plane (which fixes the starting position `θ = π`). -/
noncomputable def mirrorState (s : RState) : RState :=
  ⟨s.r, 2 * Real.pi - s.theta, s.dr, - s.dtheta⟩

/-- The state of slot `slot` of `gen_outcomes` at exit of the integration
loop. -/
noncomputable def finalStateOf (mn mx : ℝ) (num : ℕ) (start_r : ℝ) (slot : ℕ) : RState :=
  (runLoop NUM_ITER (initState mn mx num start_r slot)).1

/-- A constant sky texture whose bilinear sample is everywhere
`(r,g,b,a) = (0.2, 0.4, 0.6, 0.8)`. -/
noncomputable def cexSky : Texture := fun _ _ => ⟨0.2, 0.4, 0.6, 0.8⟩

/-- A constant sphere texture. -/
noncomputable def cexSphere : Texture := fun _ _ => ⟨0.1, 0.1, 0.1, 0.1⟩

/-- Concrete render arguments: 2×2 frame, all-Escaped outcome table,
constant textures, `aa = 1`. -/
noncomputable def cexArgs : RenderArgs :=
  ⟨fun _ => 0, fun _ => 1, 2, 2, 0, 0, cexSky, cexSphere, 1, 1⟩

/-- `cexSky` with only the alpha channel changed. -/
noncomputable def niSky2 : Texture := fun _ _ => ⟨0.2, 0.4, 0.6, 0.05⟩

/-- `cexSphere` with only the alpha channel changed. -/
noncomputable def niSphere2 : Texture := fun _ _ => ⟨0.1, 0.1, 0.1, 0.9⟩

/-! ## Basic facts about the truncating cast -/

lemma cTrunc_eq_floor {x : ℝ} (h : 0 ≤ x) : cTrunc x = ⌊x⌋ := if_pos h

lemma cTrunc_natCast (n : ℕ) : cTrunc (n : ℝ) = n := by
  rw [cTrunc_eq_floor (by positivity)]
  exact_mod_cast Int.floor_natCast n

lemma ucharOf_natCast (n : ℕ) : ucharOf (n : ℝ) = n % 256 := by
  unfold ucharOf
  rw [cTrunc_natCast]
  simp

/-! ## Claims C5 and C6: the table lookup -/

/-- C5: for `0 ≤ pos ≤ num - 2` with `posi = ⌊pos⌋` and `frac = pos - posi`,
`lookup` always returns `outcome = outcomes[posi]`; it returns
`angle = angles[posi]` unblended when `outcomes[posi] ≠ outcomes[posi+1]`, and
the linear blend `(1-frac)·angles[posi] + frac·angles[posi+1]` when they are
equal; in particular at a discontinuity `lookup (i + 0.5)` returns exactly
`angles[i]`. -/
theorem lookup_spec :
    (∀ (angles : ℤ → ℝ) (outc : ℤ → ℕ) (num : ℕ) (pos : ℝ),
      2 ≤ num → 0 ≤ pos → pos ≤ (num : ℝ) - 2 →
      ((lookup angles outc pos).2 = outc ⌊pos⌋ ∧
       (outc ⌊pos⌋ ≠ outc (⌊pos⌋ + 1) → (lookup angles outc pos).1 = angles ⌊pos⌋) ∧
       (outc ⌊pos⌋ = outc (⌊pos⌋ + 1) →
         (lookup angles outc pos).1 =
           (1 - (pos - (⌊pos⌋ : ℝ))) * angles ⌊pos⌋
             + (pos - (⌊pos⌋ : ℝ)) * angles (⌊pos⌋ + 1)))) ∧
    (∀ (angles : ℤ → ℝ) (outc : ℤ → ℕ) (num i : ℕ),
      2 ≤ num → (i : ℝ) + 1/2 ≤ (num : ℝ) - 2 →
      outc i ≠ outc ((i : ℤ) + 1) →
      (lookup angles outc ((i : ℝ) + 1/2)).1 = angles i) := by
  constructor
  · intro angles outc num pos _ hpos _
    unfold lookup
    rw [cTrunc_eq_floor hpos]
    refine ⟨?_, ?_, ?_⟩
    · split_ifs <;> rfl
    · intro h; rw [if_pos h]
    · intro h; rw [if_neg (not_not_intro h)]
  · intro angles outc num i _ _ hdisc
    have hfl : ⌊(i : ℝ) + 1/2⌋ = (i : ℤ) := by
      rw [Int.floor_eq_iff]
      constructor
      · push_cast; linarith
      · push_cast; linarith
    unfold lookup
    rw [cTrunc_eq_floor (by positivity), hfl, if_pos hdisc]

/-- C5 witness: the theorem applied at a concrete table with a discontinuity
between slots 0 and 1, queried at position 1/2. -/
theorem lookup_spec_witness :
    (lookup (fun k : ℤ => (k : ℝ)) (fun k : ℤ => if k ≤ 0 then 0 else 1) (1/2 : ℝ)).1 = 0 := by
  have h := lookup_spec.2 (fun k : ℤ => (k : ℝ)) (fun k : ℤ => if k ≤ 0 then 0 else 1) 3 0
    (by norm_num) (by norm_num) (by norm_num)
  simpa using h

/-- C6: at an integer query position `i` with `0 ≤ i ≤ num - 2`, `lookup`
returns exactly `angles[i]` (zero interpolation error) and `outcomes[i]`. -/
theorem lookup_integer_exact (angles : ℤ → ℝ) (outc : ℤ → ℕ) (num i : ℕ)
    (hnum : 2 ≤ num) (hi : (i : ℝ) ≤ (num : ℝ) - 2) :
    lookup angles outc (i : ℝ) = (angles i, outc i) := by
  unfold lookup
  rw [cTrunc_natCast]
  split_ifs with h
  · rfl
  · have hfrac : ((i : ℝ) - ((i : ℤ) : ℝ)) = 0 := by push_cast; ring
    rw [hfrac]
    norm_num

/-- C6 witness: the theorem applied to a concrete constant table at slot 0. -/
theorem lookup_integer_exact_witness :
    lookup (fun _ : ℤ => (7 : ℝ)) (fun _ : ℤ => 5) ((0 : ℕ) : ℝ) = (7, 5) :=
  lookup_integer_exact (fun _ : ℤ => (7 : ℝ)) (fun _ : ℤ => 5) 2 0
    (by norm_num) (by norm_num)

/-! ## Claim C3: shape of one integration step -/

/-- C3: each integration step (1) recomputes `dt` as the non-negative root
`sqrt(dr²/q² + r²·dθ²/q)` with `q = 1 - 2GM/r`, (2) updates the velocities
with `dr += TS·d²r`, `dθ += TS·d²θ` using the Schwarzschild second-derivative
formulas, and (3) updates the positions with the just-updated velocities
`r += TS·dr`, `θ += TS·dθ` (semi-implicit Euler). -/
theorem step_order_spec (s : RState) :
    0 ≤ null_dt s.r s.dr s.dtheta ∧
    null_dt s.r s.dr s.dtheta =
      Real.sqrt (s.dr ^ 2 / (1 - 2 * GM / s.r) ^ 2
        + s.r ^ 2 * s.dtheta ^ 2 / (1 - 2 * GM / s.r)) ∧
    stepState s =
      { r := s.r + TS * (s.dr + TS *
               (- GM / s.r ^ 3 * (s.r - 2 * GM) * (null_dt s.r s.dr s.dtheta) ^ 2
                 + GM / (s.r * (s.r - 2 * GM)) * s.dr ^ 2
                 + (s.r - 2 * GM) * s.dtheta ^ 2)),
        theta := s.theta + TS * (s.dtheta + TS * (- 2 / s.r * s.dtheta * s.dr)),
        dr := s.dr + TS *
               (- GM / s.r ^ 3 * (s.r - 2 * GM) * (null_dt s.r s.dr s.dtheta) ^ 2
                 + GM / (s.r * (s.r - 2 * GM)) * s.dr ^ 2
                 + (s.r - 2 * GM) * s.dtheta ^ 2),
        dtheta := s.dtheta + TS * (- 2 / s.r * s.dtheta * s.dr) } := by
  refine ⟨Real.sqrt_nonneg _, ?_, ?_⟩
  · unfold null_dt
    congr 1
    ring
  · simp only [stepState, d2r, d2theta, RState.mk.injEq]
    refine ⟨by ring, by ring, by ring, by ring⟩

/-! ## Claim C4: per-slot initial state -/

/-- C4: for `num ≥ 2`, slot `i` starts with `frac = i/(num-1)`,
`ray_amt = lerp(min, max, frac) = max·frac + min·(1-frac)`, direction
`(dx = ray_amt, dz = 1)`, position `r = start_r`, `θ = π`, and converted
rates `dr = -start_r·dz/r`, `dθ = -start_r·dx/r²`. -/
theorem init_spec (mn mx start_r : ℝ) (num : ℕ) (hnum : 2 ≤ num) (slot : ℕ) :
    initState mn mx num start_r slot =
      { r := start_r,
        theta := Real.pi,
        dr := - start_r * 1 / start_r,
        dtheta := - start_r * (mx * ((slot : ℝ) / ((num : ℝ) - 1))
                    + mn * (1 - (slot : ℝ) / ((num : ℝ) - 1)))
                  / (start_r * start_r) } := rfl

/-- C4 witness: the theorem applied at `mn = 0`, `mx = 1`, `start_r = 5`,
`num = 2`, slot 0; the resulting rates evaluate to `dr = -1`, `dθ = 0`. -/
theorem init_spec_witness :
    initState 0 1 2 5 0 = { r := 5, theta := Real.pi, dr := -1, dtheta := 0 } := by
  have h := init_spec 0 1 5 2 (by norm_num) 0
  rw [h]
  simp only [RState.mk.injEq]
  refine ⟨trivial, trivial, by norm_num, by norm_num⟩

/-! ## Claim C2: loop-exit classification -/

lemma iterState_zero (s : RState) : iterState 0 s = s := rfl

lemma iterState_one (s : RState) : iterState 1 s = stepState s := rfl

lemma iterState_succ_shift (t : ℕ) (s : RState) :
    iterState (t + 1) s = iterState t (stepState s) :=
  Function.iterate_succ_apply stepState t s

lemma min_r_pos : (0 : ℝ) < min_r := by norm_num [min_r, GM]

lemma min_r_lt_500 : min_r < 500 := by norm_num [min_r, GM]

/-- The loop returns at the first step `T` whose new state crosses a
threshold, provided no earlier step crossed one: captured if `r ≤ min_r`
there, escaped if `r > 500` there. -/
lemma runLoop_first_crossing :
    ∀ (T : ℕ), 1 ≤ T → ∀ (fuel : ℕ) (s : RState), T ≤ fuel →
      (∀ t, 1 ≤ t → t < T → min_r < (iterState t s).r ∧ (iterState t s).r ≤ 500) →
      (((iterState T s).r ≤ min_r → runLoop fuel s = (iterState T s, true)) ∧
       (500 < (iterState T s).r → runLoop fuel s = (iterState T s, false))) := by
  intro T
  induction T with
  | zero => omega
  | succ T ih =>
    intro _ fuel s hfuel hb
    obtain ⟨f, rfl⟩ : ∃ f, fuel = f + 1 := ⟨fuel - 1, by omega⟩
    by_cases hT : T = 0
    · subst hT
      simp only [runLoop]
      constructor
      · intro hcap
        rw [iterState_one] at hcap
        rw [if_pos hcap]
        rw [iterState_one]
      · intro hesc
        rw [iterState_one] at hesc
        rw [if_neg (by push_neg; linarith [min_r_lt_500]), if_pos hesc]
        rw [iterState_one]
    · have hT1 : 1 ≤ T := by omega
      have hb1 := hb 1 le_rfl (by omega)
      rw [iterState_one] at hb1
      simp only [runLoop]
      rw [if_neg (by push_neg; exact hb1.1), if_neg (by push_neg; exact hb1.2)]
      have hb' : ∀ t, 1 ≤ t → t < T →
          min_r < (iterState t (stepState s)).r ∧ (iterState t (stepState s)).r ≤ 500 := by
        intro t ht1 ht2
        rw [← iterState_succ_shift]
        exact hb (t + 1) (by omega) (by omega)
      have := ih hT1 f (stepState s) (by omega) hb'
      rw [← iterState_succ_shift] at this
      exact this

/-- If no step within the fuel budget crosses either threshold, the loop
runs to exhaustion and returns its last state with `hit = false`. -/
lemma runLoop_exhaust :
    ∀ (fuel : ℕ) (s : RState),
      (∀ t, 1 ≤ t → t ≤ fuel → min_r < (iterState t s).r ∧ (iterState t s).r ≤ 500) →
      runLoop fuel s = (iterState fuel s, false) := by
  intro fuel
  induction fuel with
  | zero => intro s _; rfl
  | succ f ih =>
    intro s hb
    have hb1 := hb 1 le_rfl (by omega)
    rw [iterState_one] at hb1
    simp only [runLoop]
    rw [if_neg (by push_neg; exact hb1.1), if_neg (by push_neg; exact hb1.2)]
    have hb' : ∀ t, 1 ≤ t → t ≤ f →
        min_r < (iterState t (stepState s)).r ∧ (iterState t (stepState s)).r ≤ 500 := by
      intro t ht1 ht2
      rw [← iterState_succ_shift]
      exact hb (t + 1) (by omega) (by omega)
    rw [ih (stepState s) hb', ← iterState_succ_shift]

/-- C2: if the first threshold crossed within the `NUM_ITER` budget is
`r ≤ min_r` at step `T`, the slot is Captured (0) with angle `π/2 - θ` at
that step; if it is `r > 500` at step `T`, or no threshold is crossed within
the budget, the slot is Escaped (1) with angle `atan2(dz, dx)` where
`dx = r·cosθ·dθ + sinθ·dr` and `dz = -r·sinθ·dθ + cosθ·dr` are evaluated at
the last state of the loop. -/
theorem outcome_classification (s : RState) :
    (∀ T : ℕ, 1 ≤ T → T ≤ NUM_ITER →
      (∀ t, 1 ≤ t → t < T → min_r < (iterState t s).r ∧ (iterState t s).r ≤ 500) →
      (((iterState T s).r ≤ min_r →
         rayResult s = (Real.pi / 2 - (iterState T s).theta, 0)) ∧
       (500 < (iterState T s).r →
         rayResult s =
           (atan2 (- (iterState T s).r * Real.sin (iterState T s).theta * (iterState T s).dtheta
                     + Real.cos (iterState T s).theta * (iterState T s).dr)
                  ((iterState T s).r * Real.cos (iterState T s).theta * (iterState T s).dtheta
                     + Real.sin (iterState T s).theta * (iterState T s).dr), 1)))) ∧
    ((∀ t, 1 ≤ t → t ≤ NUM_ITER → min_r < (iterState t s).r ∧ (iterState t s).r ≤ 500) →
      rayResult s =
        (atan2 (- (iterState NUM_ITER s).r * Real.sin (iterState NUM_ITER s).theta
                    * (iterState NUM_ITER s).dtheta
                  + Real.cos (iterState NUM_ITER s).theta * (iterState NUM_ITER s).dr)
               ((iterState NUM_ITER s).r * Real.cos (iterState NUM_ITER s).theta
                    * (iterState NUM_ITER s).dtheta
                  + Real.sin (iterState NUM_ITER s).theta * (iterState NUM_ITER s).dr), 1)) := by
  constructor
  · intro T hT1 hTN hb
    have h := runLoop_first_crossing T hT1 NUM_ITER s hTN hb
    constructor
    · intro hcap
      unfold rayResult
      rw [h.1 hcap]
      simp [finishRay]
    · intro hesc
      unfold rayResult
      rw [h.2 hesc]
      simp [finishRay]
  · intro hb
    unfold rayResult
    rw [runLoop_exhaust NUM_ITER s hb]
    simp [finishRay]

/-! ## Purely radial rays: closed-form behaviour of a step -/

lemma one_sub_ne_zero {r : ℝ} (hr : r ≠ 0) (hq : r - 2 * GM ≠ 0) :
    (1 : ℝ) - 2 * GM / r ≠ 0 := by
  intro h
  apply hq
  field_simp at h
  linarith

/-- A purely radial in-falling ray (`dr = -1`, `dθ = 0`) has vanishing
accelerations, so one step just moves it inward by `TS`. -/
lemma stepState_radial (r θ : ℝ) (hr : r ≠ 0) (hq : r - 2 * GM ≠ 0) :
    stepState ⟨r, θ, -1, 0⟩ = ⟨r - TS, θ, -1, 0⟩ := by
  have hqne := one_sub_ne_zero hr hq
  have harg : (-1 : ℝ) * (-1) / ((1 - 2 * GM / r) * (1 - 2 * GM / r))
      + r * r * 0 * 0 / (1 - 2 * GM / r)
      = 1 / ((1 - 2 * GM / r) * (1 - 2 * GM / r)) := by ring
  have hdt2 : null_dt r (-1) 0 * null_dt r (-1) 0
      = 1 / ((1 - 2 * GM / r) * (1 - 2 * GM / r)) := by
    unfold null_dt
    rw [harg, Real.mul_self_sqrt (div_nonneg (by norm_num) (mul_self_nonneg _))]
  have hddr : d2r r (null_dt r (-1) 0) (-1) 0 = 0 := by
    unfold d2r
    have hassoc : - GM / (r * r * r) * (r - 2 * GM) * null_dt r (-1) 0 * null_dt r (-1) 0
        = - GM / (r * r * r) * (r - 2 * GM) * (null_dt r (-1) 0 * null_dt r (-1) 0) := by
      ring
    rw [hassoc, hdt2]
    field_simp
    ring
  have hddth : d2theta r (-1) 0 = 0 := by unfold d2theta; ring
  simp only [stepState, hddr, hddth, RState.mk.injEq]
  refine ⟨by ring, by ring, by ring, by ring⟩

/-- C2 witness: starting just above the horizon with a radial ray, the first
step crosses `min_r`, so the classification theorem reports Captured with
angle `π/2 - θ` of the crossing state. -/
theorem outcome_classification_witness :
    rayResult ⟨2001/100, Real.pi, -1, 0⟩ = (Real.pi / 2 - Real.pi, 0) := by
  have hstep : iterState 1 ⟨2001/100, Real.pi, -1, 0⟩ = ⟨20, Real.pi, -1, 0⟩ := by
    rw [iterState_one, stepState_radial (2001/100) Real.pi (by norm_num) (by norm_num [GM])]
    simp only [RState.mk.injEq]
    refine ⟨by norm_num [TS], trivial, trivial, trivial⟩
  have h := (outcome_classification ⟨2001/100, Real.pi, -1, 0⟩).1 1 le_rfl
    (by norm_num [NUM_ITER]) (by intro t ht1 ht2; omega)
  have h2 := h.1 (by rw [hstep]; norm_num [min_r, GM])
  rw [h2, hstep]

/-! ## Claim C8: rays aimed straight at the hole are captured -/

/-- A radial in-falling ray starting in `(min_r, 500]` is captured once the
fuel budget covers the distance to the horizon. -/
lemma runLoop_radial_capture :
    ∀ (fuel : ℕ) (r θ : ℝ), min_r < r → r ≤ 500 →
      r - min_r ≤ (fuel : ℝ) * TS → (runLoop fuel ⟨r, θ, -1, 0⟩).2 = true := by
  intro fuel
  induction fuel with
  | zero =>
    intro r θ h1 _ h3
    norm_num at h3
    linarith
  | succ f ih =>
    intro r θ h1 h2 h3
    have h20 : (20 : ℝ) < r := by
      have : (20 : ℝ) < min_r := by norm_num [min_r, GM]
      linarith
    have hr0 : r ≠ 0 := by intro h; rw [h] at h20; linarith
    have hq : r - 2 * GM ≠ 0 := by
      have : (2 : ℝ) * GM = 20 := by norm_num [GM]
      intro h; rw [this] at h; linarith [sub_eq_zero.mp h]
    have hTS : TS = 1/100 := by norm_num [TS]
    simp only [runLoop]
    rw [stepState_radial r θ hr0 hq]
    by_cases hcap : r - TS ≤ min_r
    · rw [if_pos (show (⟨r - TS, θ, -1, 0⟩ : RState).r ≤ min_r from hcap)]
    · rw [if_neg (show ¬ (⟨r - TS, θ, -1, 0⟩ : RState).r ≤ min_r from hcap)]
      push_neg at hcap
      have hesc : ¬ (⟨r - TS, θ, -1, 0⟩ : RState).r > 500 := by
        show ¬ r - TS > 500
        rw [hTS]
        push_neg
        linarith
      rw [if_neg hesc]
      apply ih (r - TS) θ hcap (by rw [hTS]; linarith)
      rw [hTS]
      rw [hTS] at h3
      push_cast at h3 ⊢
      linarith

/-- C8: with `min = max = 0` every slot is a radial ray (`ray_amt = 0`,
`dθ = 0`), and for `start_r` in the working range above `min_r` the outcome
is Captured (0). -/
theorem direct_hit (num : ℕ) (hnum : 2 ≤ num) (start_r : ℝ) (slot : ℕ)
    (hlow : min_r < start_r) (hhigh : start_r ≤ 500) :
    (gen_outcomes 0 0 num start_r slot).2 = 0 := by
  have h0 : (0 : ℝ) < start_r := lt_trans min_r_pos hlow
  have hinit : initState 0 0 num start_r slot = ⟨start_r, Real.pi, -1, 0⟩ := by
    simp only [initState, RState.mk.injEq]
    refine ⟨trivial, trivial, ?_, ?_⟩
    · field_simp
    · norm_num
  have hcap := runLoop_radial_capture NUM_ITER start_r Real.pi hlow hhigh
    (by
      have : ((NUM_ITER : ℕ) : ℝ) * TS = 10000 := by norm_num [NUM_ITER, TS]
      rw [this]
      have := min_r_pos
      linarith)
  simp only [gen_outcomes, rayResult, hinit]
  rcases hrl : runLoop NUM_ITER ⟨start_r, Real.pi, -1, 0⟩ with ⟨sfin, hitf⟩
  rw [hrl] at hcap
  simp only at hcap
  subst hcap
  simp [finishRay]

/-- C8 witness: the theorem applied at `num = 2`, `start_r = 100`, slot 0. -/
theorem direct_hit_witness : (gen_outcomes 0 0 2 100 0).2 = 0 :=
  direct_hit 2 (by norm_num) 100 0 (by norm_num [min_r, GM]) (by norm_num)

/-! ## Claim C7: mirror behaviour of the integrator -/

lemma null_dt_neg (r dr dθ : ℝ) : null_dt r dr (-dθ) = null_dt r dr dθ := by
  unfold null_dt
  congr 1
  ring

lemma d2r_neg (r dt dr dθ : ℝ) : d2r r dt dr (-dθ) = d2r r dt dr dθ := by
  unfold d2r
  ring

lemma d2theta_neg (r dr dθ : ℝ) : d2theta r dr (-dθ) = - d2theta r dr dθ := by
  unfold d2theta
  ring

/-- The integration step commutes with the mirror reflection. -/
lemma stepState_mirror (s : RState) :
    stepState (mirrorState s) = mirrorState (stepState s) := by
  simp only [stepState, mirrorState, null_dt_neg, d2r_neg, d2theta_neg, RState.mk.injEq]
  refine ⟨by ring, by ring, by ring, by ring⟩

/-- The whole loop commutes with the mirror reflection: same exit step, same
`hit` flag, mirrored exit state. -/
lemma runLoop_mirror (fuel : ℕ) :
    ∀ s : RState, runLoop fuel (mirrorState s)
      = (mirrorState (runLoop fuel s).1, (runLoop fuel s).2) := by
  induction fuel with
  | zero => intro s; rfl
  | succ f ih =>
    intro s
    simp only [runLoop, stepState_mirror]
    have hr : (mirrorState (stepState s)).r = (stepState s).r := rfl
    rw [hr]
    split_ifs with h1 h2
    · rfl
    · rfl
    · exact ih (stepState s)

/-- With `mn = -mx`, slot `num - 1 - i` starts in the mirror image of slot
`i`'s initial state. -/
lemma initState_mirror (mx start_r : ℝ) (num : ℕ) (hnum : 2 ≤ num) (i : ℕ) (hi : i < num) :
    initState (-mx) mx num start_r (num - 1 - i)
      = mirrorState (initState (-mx) mx num start_r i) := by
  have hcast : ((num - 1 - i : ℕ) : ℝ) = (num : ℝ) - 1 - (i : ℝ) := by
    have h1 : i ≤ num - 1 := by omega
    have h2 : 1 ≤ num := by omega
    rw [Nat.cast_sub h1, Nat.cast_sub h2]
    norm_num
  have hden : (num : ℝ) - 1 ≠ 0 := by
    have : (2 : ℝ) ≤ (num : ℝ) := by exact_mod_cast hnum
    intro h
    linarith [sub_eq_zero.mp h]
  simp only [initState, mirrorState, RState.mk.injEq]
  refine ⟨trivial, by ring, trivial, ?_⟩
  rw [hcast, ← neg_div]
  congr 1
  field_simp
  ring

lemma runLoop_succ (fuel : ℕ) (s : RState) :
    runLoop (fuel + 1) s =
      (if (stepState s).r ≤ min_r then (stepState s, true)
       else if (stepState s).r > 500 then (stepState s, false)
       else runLoop fuel (stepState s)) := rfl

/-- `finishRay` on a captured ray, componentwise. -/
lemma finishRay_fst_true (s : RState) :
    (finishRay (s, true)).1 = Real.pi / 2 - s.theta := rfl

lemma finishRay_snd_true (s : RState) : (finishRay (s, true)).2 = 0 := rfl

/-- `finishRay` on an escaped ray, componentwise. -/
lemma finishRay_fst_false (s : RState) :
    (finishRay (s, false)).1
      = atan2 (- s.r * Real.sin s.theta * s.dtheta + Real.cos s.theta * s.dr)
              (s.r * Real.cos s.theta * s.dtheta + Real.sin s.theta * s.dr) := rfl

lemma finishRay_snd_false (s : RState) : (finishRay (s, false)).2 = 1 := rfl

/-- Evaluation of the loop on the concrete radial start `r = 2001/100`: the
first step reaches `r = 20 ≤ min_r`, so the ray is captured immediately. -/
lemma runLoop_start2001 (θ : ℝ) :
    runLoop NUM_ITER ⟨2001/100, θ, -1, 0⟩ = (⟨20, θ, -1, 0⟩, true) := by
  rw [show NUM_ITER = 999999 + 1 by norm_num [NUM_ITER]]
  rw [runLoop_succ]
  rw [stepState_radial (2001/100) θ (by norm_num) (by norm_num [GM])]
  rw [show (2001/100 : ℝ) - TS = 20 by norm_num [TS]]
  rw [if_pos (show (⟨(20 : ℝ), θ, -1, 0⟩ : RState).r ≤ min_r by
    show (20 : ℝ) ≤ min_r
    norm_num [min_r, GM])]

/-- With `mn = -mx = 0` and `start_r = 2001/100`, every slot is a radial ray
captured after one step, recording angle `π/2 - π`. -/
lemma gen_outcomes_cex_eval (slot : ℕ) :
    gen_outcomes (-(0:ℝ)) 0 2 (2001/100) slot = (Real.pi / 2 - Real.pi, 0) := by
  have hinit : initState (-(0:ℝ)) 0 2 (2001/100) slot = ⟨2001/100, Real.pi, -1, 0⟩ := by
    simp only [initState, RState.mk.injEq]
    refine ⟨trivial, trivial, by norm_num, by norm_num⟩
  simp only [gen_outcomes, rayResult, hinit, runLoop_start2001]
  simp [finishRay]

/-- C7 counterexample: with `min = -max` (`max = 0`, `num = 2`,
`start_r = 2001/100`) both slots are captured with recorded angle
`π/2 - π = -π/2`, so `angles[num-1-i] = -angles[i]` fails at `i = 0`:
`-π/2 ≠ π/2`. -/
theorem mirror_sign_flip_cex :
    ¬ ((gen_outcomes (-(0:ℝ)) 0 2 (2001/100) (2 - 1 - 0)).1
        = - (gen_outcomes (-(0:ℝ)) 0 2 (2001/100) 0).1) := by
  rw [gen_outcomes_cex_eval, gen_outcomes_cex_eval]
  intro h
  have hπ := Real.pi_pos
  linarith

/-- C7 (amended): for `min = -max` and `num ≥ 2`, slots `i` and `num-1-i`
have equal outcomes, and their angles are mirror images rather than sign
flips: for captured rays `angles[num-1-i] = -π - angles[i]` exactly, and for
escaped rays the two angles are `atan2(dz, dx)` and `atan2(dz, -dx)` for the
same final-state direction components `dx, dz` of slot `i` (the direction
reflected in its x component). -/
theorem mirror_reflection (mx start_r : ℝ) (num : ℕ) (hnum : 2 ≤ num) (i : ℕ) (hi : i < num) :
    (gen_outcomes (-mx) mx num start_r (num - 1 - i)).2
        = (gen_outcomes (-mx) mx num start_r i).2 ∧
    ((gen_outcomes (-mx) mx num start_r i).2 = 0 →
      (gen_outcomes (-mx) mx num start_r (num - 1 - i)).1
        = - Real.pi - (gen_outcomes (-mx) mx num start_r i).1) ∧
    ((gen_outcomes (-mx) mx num start_r i).2 = 1 →
      ((gen_outcomes (-mx) mx num start_r i).1
          = atan2 (- (finalStateOf (-mx) mx num start_r i).r
                      * Real.sin (finalStateOf (-mx) mx num start_r i).theta
                      * (finalStateOf (-mx) mx num start_r i).dtheta
                    + Real.cos (finalStateOf (-mx) mx num start_r i).theta
                      * (finalStateOf (-mx) mx num start_r i).dr)
                  ((finalStateOf (-mx) mx num start_r i).r
                      * Real.cos (finalStateOf (-mx) mx num start_r i).theta
                      * (finalStateOf (-mx) mx num start_r i).dtheta
                    + Real.sin (finalStateOf (-mx) mx num start_r i).theta
                      * (finalStateOf (-mx) mx num start_r i).dr) ∧
       (gen_outcomes (-mx) mx num start_r (num - 1 - i)).1
          = atan2 (- (finalStateOf (-mx) mx num start_r i).r
                      * Real.sin (finalStateOf (-mx) mx num start_r i).theta
                      * (finalStateOf (-mx) mx num start_r i).dtheta
                    + Real.cos (finalStateOf (-mx) mx num start_r i).theta
                      * (finalStateOf (-mx) mx num start_r i).dr)
                  (- ((finalStateOf (-mx) mx num start_r i).r
                      * Real.cos (finalStateOf (-mx) mx num start_r i).theta
                      * (finalStateOf (-mx) mx num start_r i).dtheta
                    + Real.sin (finalStateOf (-mx) mx num start_r i).theta
                      * (finalStateOf (-mx) mx num start_r i).dr)))) := by
  have hmirr := initState_mirror mx start_r num hnum i hi
  rcases hE : runLoop NUM_ITER (initState (-mx) mx num start_r i) with ⟨s1, hit⟩
  have hrunj : runLoop NUM_ITER (initState (-mx) mx num start_r (num - 1 - i))
      = (mirrorState s1, hit) := by
    rw [hmirr, runLoop_mirror, hE]
  have hgi : gen_outcomes (-mx) mx num start_r i = finishRay (s1, hit) := by
    simp only [gen_outcomes, rayResult, hE]
  have hgj : gen_outcomes (-mx) mx num start_r (num - 1 - i)
      = finishRay (mirrorState s1, hit) := by
    simp only [gen_outcomes, rayResult, hrunj]
  have hfin : finalStateOf (-mx) mx num start_r i = s1 := by
    simp only [finalStateOf, hE]
  cases hit with
  | true =>
    refine ⟨?_, ?_, ?_⟩
    · rw [hgi, hgj, finishRay_snd_true, finishRay_snd_true]
    · intro _
      rw [hgi, hgj, finishRay_fst_true, finishRay_fst_true]
      simp only [mirrorState]
      ring
    · intro habs
      rw [hgi, finishRay_snd_true] at habs
      exact absurd habs.symm one_ne_zero
  | false =>
    refine ⟨?_, ?_, ?_⟩
    · rw [hgi, hgj, finishRay_snd_false, finishRay_snd_false]
    · intro habs
      rw [hgi, finishRay_snd_false] at habs
      exact absurd habs one_ne_zero
    · intro _
      have hA : - (mirrorState s1).r * Real.sin (mirrorState s1).theta
            * (mirrorState s1).dtheta
          + Real.cos (mirrorState s1).theta * (mirrorState s1).dr
          = - s1.r * Real.sin s1.theta * s1.dtheta + Real.cos s1.theta * s1.dr := by
        simp only [mirrorState]
        rw [Real.sin_two_pi_sub, Real.cos_two_pi_sub]
        ring
      have hB : (mirrorState s1).r * Real.cos (mirrorState s1).theta
            * (mirrorState s1).dtheta
          + Real.sin (mirrorState s1).theta * (mirrorState s1).dr
          = - (s1.r * Real.cos s1.theta * s1.dtheta + Real.sin s1.theta * s1.dr) := by
        simp only [mirrorState]
        rw [Real.sin_two_pi_sub, Real.cos_two_pi_sub]
        ring
      constructor
      · rw [hgi, hfin, finishRay_fst_false]
      · rw [hgj, hfin, finishRay_fst_false, hA, hB]

/-- C7 amended-claim witness: the theorem applied at `mx = 0`, `num = 2`,
`start_r = 100`, slot `i = 0` — the two mirrored slots get equal outcomes. -/
theorem mirror_reflection_witness :
    (gen_outcomes (-(0:ℝ)) 0 2 100 (2 - 1 - 0)).2 = (gen_outcomes (-(0:ℝ)) 0 2 100 0).2 :=
  (mirror_reflection 0 100 2 (by norm_num) 0 (by norm_num)).1

/-! ## Claims C1, C9, C10: the render kernel -/

lemma foldl_add3 {α : Type} (fr fg fb : α → ℕ) :
    ∀ (l : List α) (init : ℕ × ℕ × ℕ),
      l.foldl (fun acc x => (acc.1 + fr x, acc.2.1 + fg x, acc.2.2 + fb x)) init
        = (init.1 + (l.map fr).sum, init.2.1 + (l.map fg).sum, init.2.2 + (l.map fb).sum) := by
  intro l
  induction l with
  | nil => intro init; simp
  | cons a t ih =>
    intro init
    simp only [List.foldl_cons, List.map_cons, List.sum_cons, ih, Prod.mk.injEq]
    refine ⟨by omega, by omega, by omega⟩

lemma range_map_sum (n : ℕ) (f : ℕ → ℕ) :
    ((List.range n).map f).sum = ∑ j in Finset.range n, f j := by
  induction n with
  | zero => simp
  | succ m ih =>
    rw [List.range_succ, List.map_append, List.sum_append, Finset.sum_range_succ, ih]
    simp

/-- The nested AA loops accumulate exactly the per-channel sums of all
`aa × aa` supersamples. -/
lemma accumChannels_eq (A : RenderArgs) (g0 g1 : ℕ) :
    accumChannels A g0 g1 =
      (∑ i in Finset.range A.aa, ∑ j in Finset.range A.aa, (samplePix A g0 g1 i j).r,
       ∑ i in Finset.range A.aa, ∑ j in Finset.range A.aa, (samplePix A g0 g1 i j).g,
       ∑ i in Finset.range A.aa, ∑ j in Finset.range A.aa, (samplePix A g0 g1 i j).b) := by
  unfold accumChannels
  simp only [foldl_add3, range_map_sum, zero_add]

/-- The kernel's written pixel, with the accumulators expressed as sums. -/
lemma schwarz_eq_sum (A : RenderArgs) (g0 g1 : ℕ) :
    schwarz A g0 g1 =
      { a := (∑ i in Finset.range A.aa, ∑ j in Finset.range A.aa,
                (samplePix A g0 g1 i j).b) / (A.aa * A.aa),
        r := (∑ i in Finset.range A.aa, ∑ j in Finset.range A.aa,
                (samplePix A g0 g1 i j).g) / (A.aa * A.aa),
        g := (∑ i in Finset.range A.aa, ∑ j in Finset.range A.aa,
                (samplePix A g0 g1 i j).r) / (A.aa * A.aa),
        b := 0 } := by
  unfold schwarz
  rw [accumChannels_eq]

/-- `lookup` with a constant outcome table always reports that outcome. -/
lemma lookup_const_outcome (angles : ℤ → ℝ) (c : ℕ) (pos : ℝ) :
    (lookup angles (fun _ => c) pos).2 = c := by
  unfold lookup
  simp

lemma sampleGeom_cex_res (ax ay : ℕ) : (sampleGeom cexArgs 0 0 ax ay).1 = 1 := by
  simp only [sampleGeom, cexArgs]
  exact lookup_const_outcome _ 1 _

/-- Concrete evaluation of one supersample with the constant textures: the
outcome is Escaped, so the sky sample `(0.2, 0.4, 0.6, 0.8)` is scaled to
bytes `(a, r, g, b) = (204, 51, 102, 153)`. -/
lemma samplePix_cex (ax ay : ℕ) :
    samplePix cexArgs 0 0 ax ay = ⟨204, 51, 102, 153⟩ := by
  simp only [samplePix]
  rw [sampleGeom_cex_res]
  simp only [one_ne_zero, if_false]
  show pixel_from_img cexSky _ _ = _
  simp only [pixel_from_img, cexSky]
  rw [show (0.8 * 255 : ℝ) = ((204 : ℕ) : ℝ) by norm_num,
      show (0.2 * 255 : ℝ) = ((51 : ℕ) : ℝ) by norm_num,
      show (0.4 * 255 : ℝ) = ((102 : ℕ) : ℝ) by norm_num,
      show (0.6 * 255 : ℝ) = ((153 : ℕ) : ℝ) by norm_num]
  rw [ucharOf_natCast, ucharOf_natCast, ucharOf_natCast, ucharOf_natCast]

/-- C1 counterexample: for the concrete inputs `cexArgs` (constant sky
texture with blue channel 0.6, `aa = 1`) the stored pixel's alpha field is
153 — the blue accumulator — not 0 as the claim requires. -/
theorem pixel_alpha_cex :
    (schwarz cexArgs 0 0).a = 153 ∧ (schwarz cexArgs 0 0).a ≠ 0 := by
  have h : schwarz cexArgs 0 0 = ⟨153, 102, 51, 0⟩ := by
    rw [schwarz_eq_sum]
    have haa : cexArgs.aa = 1 := rfl
    simp [haa, samplePix_cex]
  rw [h]
  exact ⟨rfl, by norm_num⟩

/-- C1 (amended): the stored pixel assigns, in the struct's field order
`(a, r, g, b)`, the values `(accumulated_b, accumulated_g, accumulated_r, 0)`:
alpha holds the blue accumulator, red the green accumulator, green the red
accumulator, and blue is 0, each accumulator being the AA-averaged sum. -/
theorem pixel_channel_order (A : RenderArgs) (g0 g1 : ℕ) :
    schwarz A g0 g1 =
      { a := (∑ i in Finset.range A.aa, ∑ j in Finset.range A.aa,
                (samplePix A g0 g1 i j).b) / (A.aa * A.aa),
        r := (∑ i in Finset.range A.aa, ∑ j in Finset.range A.aa,
                (samplePix A g0 g1 i j).g) / (A.aa * A.aa),
        g := (∑ i in Finset.range A.aa, ∑ j in Finset.range A.aa,
                (samplePix A g0 g1 i j).r) / (A.aa * A.aa),
        b := 0 } :=
  schwarz_eq_sum A g0 g1

/-- C9: for `aa ≥ 1` the kernel sums each channel of all `aa × aa`
supersamples into an integer accumulator, divides each by `aa²` with
truncating integer division, and builds the written pixel from exactly those
quotients. -/
theorem aa_accumulate_divide (A : RenderArgs) (g0 g1 : ℕ) (haa : 1 ≤ A.aa) :
    accumChannels A g0 g1 =
      (∑ i in Finset.range A.aa, ∑ j in Finset.range A.aa, (samplePix A g0 g1 i j).r,
       ∑ i in Finset.range A.aa, ∑ j in Finset.range A.aa, (samplePix A g0 g1 i j).g,
       ∑ i in Finset.range A.aa, ∑ j in Finset.range A.aa, (samplePix A g0 g1 i j).b) ∧
    schwarz A g0 g1 =
      { a := (∑ i in Finset.range A.aa, ∑ j in Finset.range A.aa,
                (samplePix A g0 g1 i j).b) / (A.aa * A.aa),
        r := (∑ i in Finset.range A.aa, ∑ j in Finset.range A.aa,
                (samplePix A g0 g1 i j).g) / (A.aa * A.aa),
        g := (∑ i in Finset.range A.aa, ∑ j in Finset.range A.aa,
                (samplePix A g0 g1 i j).r) / (A.aa * A.aa),
        b := 0 } :=
  ⟨accumChannels_eq A g0 g1, schwarz_eq_sum A g0 g1⟩

/-- C9 witness: the theorem applied to the concrete arguments `cexArgs`
(`aa = 1`). -/
theorem aa_accumulate_divide_witness :
    accumChannels cexArgs 0 0 =
      (∑ i in Finset.range cexArgs.aa, ∑ j in Finset.range cexArgs.aa,
         (samplePix cexArgs 0 0 i j).r,
       ∑ i in Finset.range cexArgs.aa, ∑ j in Finset.range cexArgs.aa,
         (samplePix cexArgs 0 0 i j).g,
       ∑ i in Finset.range cexArgs.aa, ∑ j in Finset.range cexArgs.aa,
         (samplePix cexArgs 0 0 i j).b) ∧
    schwarz cexArgs 0 0 =
      { a := (∑ i in Finset.range cexArgs.aa, ∑ j in Finset.range cexArgs.aa,
                (samplePix cexArgs 0 0 i j).b) / (cexArgs.aa * cexArgs.aa),
        r := (∑ i in Finset.range cexArgs.aa, ∑ j in Finset.range cexArgs.aa,
                (samplePix cexArgs 0 0 i j).g) / (cexArgs.aa * cexArgs.aa),
        g := (∑ i in Finset.range cexArgs.aa, ∑ j in Finset.range cexArgs.aa,
                (samplePix cexArgs 0 0 i j).r) / (cexArgs.aa * cexArgs.aa),
        b := 0 } :=
  aa_accumulate_divide cexArgs 0 0 (by norm_num [cexArgs])

/-- Replacing only the textures leaves the texture-independent geometry of a
supersample unchanged. -/
lemma sampleGeom_texture_free (A : RenderArgs) (sky2 sph2 : Texture) (g0 g1 ax ay : ℕ) :
    sampleGeom { A with skytex := sky2, spheretex := sph2 } g0 g1 ax ay
      = sampleGeom A g0 g1 ax ay := rfl

/-- C10: the written pixel depends only on the red, green and blue channels
of the texture samples — the alpha channel is read into the `Pixel` struct
but never accumulated — so changing only the textures' alpha channels leaves
every written pixel (hence the whole output buffer) unchanged. -/
theorem alpha_noninterference (A : RenderArgs) (sky2 sph2 : Texture)
    (hsky : ∀ u v, (A.skytex u v).x = (sky2 u v).x ∧ (A.skytex u v).y = (sky2 u v).y
       ∧ (A.skytex u v).z = (sky2 u v).z)
    (hsph : ∀ u v, (A.spheretex u v).x = (sph2 u v).x ∧ (A.spheretex u v).y = (sph2 u v).y
       ∧ (A.spheretex u v).z = (sph2 u v).z) :
    ∀ g0 g1 : ℕ, schwarz A g0 g1 = schwarz { A with skytex := sky2, spheretex := sph2 } g0 g1 := by
  intro g0 g1
  have hsample : ∀ ax ay : ℕ,
      (samplePix A g0 g1 ax ay).r
          = (samplePix { A with skytex := sky2, spheretex := sph2 } g0 g1 ax ay).r ∧
      (samplePix A g0 g1 ax ay).g
          = (samplePix { A with skytex := sky2, spheretex := sph2 } g0 g1 ax ay).g ∧
      (samplePix A g0 g1 ax ay).b
          = (samplePix { A with skytex := sky2, spheretex := sph2 } g0 g1 ax ay).b := by
    intro ax ay
    simp only [samplePix, sampleGeom_texture_free]
    by_cases h : (sampleGeom A g0 g1 ax ay).1 = 0
    · rw [if_pos h, if_pos h]
      have hc := hsph (sampleGeom A g0 g1 ax ay).2.1 (sampleGeom A g0 g1 ax ay).2.2
      show (pixel_from_img A.spheretex _ _).r = (pixel_from_img sph2 _ _).r ∧
           (pixel_from_img A.spheretex _ _).g = (pixel_from_img sph2 _ _).g ∧
           (pixel_from_img A.spheretex _ _).b = (pixel_from_img sph2 _ _).b
      simp only [pixel_from_img]
      exact ⟨by rw [hc.1], by rw [hc.2.1], by rw [hc.2.2]⟩
    · rw [if_neg h, if_neg h]
      have hc := hsky (- (sampleGeom A g0 g1 ax ay).2.1) (sampleGeom A g0 g1 ax ay).2.2
      show (pixel_from_img A.skytex _ _).r = (pixel_from_img sky2 _ _).r ∧
           (pixel_from_img A.skytex _ _).g = (pixel_from_img sky2 _ _).g ∧
           (pixel_from_img A.skytex _ _).b = (pixel_from_img sky2 _ _).b
      simp only [pixel_from_img]
      exact ⟨by rw [hc.1], by rw [hc.2.1], by rw [hc.2.2]⟩
  rw [schwarz_eq_sum, schwarz_eq_sum]
  have haa : ({ A with skytex := sky2, spheretex := sph2 } : RenderArgs).aa = A.aa := rfl
  rw [haa]
  have hsumr : (∑ i in Finset.range A.aa, ∑ j in Finset.range A.aa,
        (samplePix A g0 g1 i j).r)
      = ∑ i in Finset.range A.aa, ∑ j in Finset.range A.aa,
        (samplePix { A with skytex := sky2, spheretex := sph2 } g0 g1 i j).r :=
    Finset.sum_congr rfl (fun i _ => Finset.sum_congr rfl (fun j _ => (hsample i j).1))
  have hsumg : (∑ i in Finset.range A.aa, ∑ j in Finset.range A.aa,
        (samplePix A g0 g1 i j).g)
      = ∑ i in Finset.range A.aa, ∑ j in Finset.range A.aa,
        (samplePix { A with skytex := sky2, spheretex := sph2 } g0 g1 i j).g :=
    Finset.sum_congr rfl (fun i _ => Finset.sum_congr rfl (fun j _ => (hsample i j).2.1))
  have hsumb : (∑ i in Finset.range A.aa, ∑ j in Finset.range A.aa,
        (samplePix A g0 g1 i j).b)
      = ∑ i in Finset.range A.aa, ∑ j in Finset.range A.aa,
        (samplePix { A with skytex := sky2, spheretex := sph2 } g0 g1 i j).b :=
    Finset.sum_congr rfl (fun i _ => Finset.sum_congr rfl (fun j _ => (hsample i j).2.2))
  rw [hsumr, hsumg, hsumb]

/-- C10 witness: the theorem applied to the concrete arguments `cexArgs` and
textures that differ from `cexSky`/`cexSphere` only in their alpha
channels. -/
theorem alpha_noninterference_witness :
    schwarz cexArgs 0 0 = schwarz { cexArgs with skytex := niSky2, spheretex := niSphere2 } 0 0 :=
  alpha_noninterference cexArgs niSky2 niSphere2
    (fun _ _ => ⟨rfl, rfl, rfl⟩) (fun _ _ => ⟨rfl, rfl, rfl⟩) 0 0

end Blackhole
